import Mathlib

/-!
Shallow embedding of the QECLab decoders and sweep driver.

Conventions of the embedding:
* A Python measurement-outcome string is a `List Char`, head = leftmost
  character of the string.
* A Qiskit counts dictionary is an association list `List (Bitstring × Nat)`
  in insertion order (Python dicts iterate in insertion order).
* Python `raise ValueError(...)` is `Except.error` carrying a `QErr`
  constructor, one constructor per distinct raise site condition.
* Python float division of two shot counts is modelled as exact rational
  division `ℚ`; the integer sums are computed first exactly as in the code.
-/

namespace QECLab

/-- A classical measurement outcome key: one `Char` per classical bit,
head of the list = leftmost character of the Python string. -/
abbrev Bitstring := List Char

/-- The distinct `ValueError` conditions raised by the repository, one
constructor per raise site condition. -/
inductive QErr where
  | invalidLogicalState
  | unknownNoiseType (noise_type : String)
  | invalidProbability
  | bitstringTooShort (bitstring : Bitstring)
  | hammingLengthMismatch
deriving DecidableEq

/-- `bitstring.count("1")`: number of characters equal to `1`. -/
def countOnes (s : Bitstring) : Nat := s.countP (fun c => c = '1')

/-- `int(logical_state)` on the already-validated states `"0"` and `"1"`. -/
def expected_logical (logical_state : String) : Nat :=
  if logical_state = "1" then 1 else 0

/-- `total_shots = sum(counts.values())`. -/
def totalShots (counts : List (Bitstring × Nat)) : Nat :=
  (counts.map Prod.snd).sum

/-- Whether an `Except` result is a normal return (no exception raised). -/
def exceptIsOk {α : Type} : Except QErr α → Bool
  | .ok _ => true
  | .error _ => false

/-- Per-outcome decoder of `RepetitionCode3.logical_error_rate_from_counts`:
`ones = bitstring.count("1"); logical_out = 1 if ones >= 2 else 0`. -/
def rep3_decode (bitstring : Bitstring) : Nat :=
  if 2 ≤ countOnes bitstring then 1 else 0

/-- `RepetitionCode3.logical_error_rate_from_counts`. -/
def rep3_logical_error_rate_from_counts
    (counts : List (Bitstring × Nat)) (logical_state : String) : Except QErr ℚ :=
  if ¬(logical_state = "0" ∨ logical_state = "1") then .error .invalidLogicalState
  else
    let expected := expected_logical logical_state
    let total := totalShots counts
    let logical_errors :=
      (counts.map (fun e => if rep3_decode e.1 ≠ expected then e.2 else 0)).sum
    if total = 0 then .ok 0 else .ok ((logical_errors : ℚ) / (total : ℚ))

/-- Per-outcome decoder of `ShorCode9.logical_error_rate_from_counts`:
reverse the key, take the three contiguous blocks `bits[start:start+3]`
for `start ∈ {0, 3, 6}`, majority (2 of 3) within each block, then
majority (2 of 3) over the three block values. -/
def shor9_decode (bitstring : Bitstring) : Nat :=
  let bits := bitstring.reverse
  let blockVote : Nat → Nat := fun start =>
    if 2 ≤ countOnes ((bits.drop start).take 3) then 1 else 0
  let block_values := [blockVote 0, blockVote 3, blockVote 6]
  if 2 ≤ block_values.countP (fun b => b = 1) then 1 else 0

/-- `ShorCode9.logical_error_rate_from_counts`. -/
def shor9_logical_error_rate_from_counts
    (counts : List (Bitstring × Nat)) (logical_state : String) : Except QErr ℚ :=
  if ¬(logical_state = "0" ∨ logical_state = "1") then .error .invalidLogicalState
  else
    let expected := expected_logical logical_state
    let total := totalShots counts
    let logical_errors :=
      (counts.map (fun e => if shor9_decode e.1 ≠ expected then e.2 else 0)).sum
    if total = 0 then .ok 0 else .ok ((logical_errors : ℚ) / (total : ℚ))

/-- Python stride slice `l[0::3]`: every third element starting at index 0. -/
def everyThird : Bitstring → Bitstring
  | [] => []
  | [c] => [c]
  | [c, _] => [c]
  | c :: _ :: _ :: rest => c :: everyThird rest

/-- Body of `RotatedSurfaceCodeD3.logical_error_rate_from_counts` acting on
`data_bits = bits[:9]` of the reversed key: three row majorities over the
slices `data_bits[start:start+3]` for `start ∈ {0, 3, 6}`, three column
majorities over `data_bits[start::3][:3]` for `start ∈ {0, 1, 2}`; the six
votes are pooled and the logical output is `1` iff at least 3 votes are `1`. -/
def surface_decode_data (data_bits : Bitstring) : Nat :=
  let rows := [0, 3, 6].map
    (fun start => if 2 ≤ countOnes ((data_bits.drop start).take 3) then 1 else 0)
  let cols := [0, 1, 2].map
    (fun start => if 2 ≤ countOnes ((everyThird (data_bits.drop start)).take 3) then 1 else 0)
  let votes := rows ++ cols
  if 3 ≤ votes.countP (fun v => v = 1) then 1 else 0

/-- Per-outcome decoder of `RotatedSurfaceCodeD3.logical_error_rate_from_counts`:
`bits = bitstring[::-1]; data_bits = bits[:9]`, then the row/column vote. -/
def surface_decode (bitstring : Bitstring) : Nat :=
  surface_decode_data (bitstring.reverse.take 9)

/-- `RotatedSurfaceCodeD3.logical_error_rate_from_counts`. -/
def surface_logical_error_rate_from_counts
    (counts : List (Bitstring × Nat)) (logical_state : String) : Except QErr ℚ :=
  if ¬(logical_state = "0" ∨ logical_state = "1") then .error .invalidLogicalState
  else
    let expected := expected_logical logical_state
    let total := totalShots counts
    let logical_errors :=
      (counts.map (fun e => if surface_decode e.1 ≠ expected then e.2 else 0)).sum
    if total = 0 then .ok 0 else .ok ((logical_errors : ℚ) / (total : ℚ))

/-- `SteaneCode7._EVEN_CODEWORDS`: the 8 even-weight Hamming [7,4,3]
codewords used in the logical zero state. -/
def EVEN_CODEWORDS : List Bitstring :=
  [['0','0','0','0','0','0','0'],
   ['1','0','1','0','1','0','1'],
   ['0','1','1','0','0','1','1'],
   ['1','1','0','0','1','1','0'],
   ['0','0','0','1','1','1','1'],
   ['1','0','1','1','0','1','0'],
   ['0','1','1','1','1','0','0'],
   ['1','1','0','1','0','0','1']]

/-- `SteaneCode7._ODD_CODEWORDS`: bitwise complements of the even codewords. -/
def ODD_CODEWORDS : List Bitstring :=
  EVEN_CODEWORDS.map (fun cw => cw.map (fun b => if b = '0' then '1' else '0'))

/-- `SteaneCode7._hamming_distance`: raises when the lengths differ, else
counts differing character positions over `zip`. -/
def hamming_distance (a b : Bitstring) : Except QErr Nat :=
  if a.length ≠ b.length then .error .hammingLengthMismatch
  else .ok ((a.zip b).countP (fun p => p.1 ≠ p.2))

/-- One of the two `for cw in ...` loops of `SteaneCode7._decode_logical_bit`:
`best` carries `(best_dist, best_logical)`; on each codeword the Hamming
distance is computed (propagating its error) and the pair is updated only
on strict improvement `d < best_dist`, setting the logical label to `label`. -/
def scanCodewords (data_bits : Bitstring) (label : Nat)
    (cws : List Bitstring) (best : Nat × Nat) : Except QErr (Nat × Nat) :=
  match cws with
  | [] => .ok best
  | cw :: rest =>
    match hamming_distance data_bits cw with
    | .error e => .error e
    | .ok d => scanCodewords data_bits label rest (if d < best.1 then (d, label) else best)

/-- `SteaneCode7._decode_logical_bit`: reverse the key, require at least 7
characters, take the first 7 as the received word, scan the ZERO-set
codewords with label 0 starting from `(n_physical + 1, 0) = (8, 0)`, then
the ONE-set codewords with label 1, and return the final label. -/
def steane_decode_logical_bit (bitstring : Bitstring) : Except QErr Nat :=
  if bitstring.reverse.length < 7 then .error (.bitstringTooShort bitstring)
  else
    match scanCodewords (bitstring.reverse.take 7) 0 EVEN_CODEWORDS (8, 0) with
    | .error e => .error e
    | .ok best =>
      match scanCodewords (bitstring.reverse.take 7) 1 ODD_CODEWORDS best with
      | .error e => .error e
      | .ok best2 => .ok best2.2

/-- The accumulation loop of `SteaneCode7.logical_error_rate_from_counts`:
decodes every key (propagating exceptions in iteration order) and sums the
shots of outcomes whose decoded bit differs from `expected`. -/
def steaneLoop (counts : List (Bitstring × Nat)) (expected : Nat) : Except QErr Nat :=
  match counts with
  | [] => .ok 0
  | (bitstring, shots) :: rest =>
    match steane_decode_logical_bit bitstring with
    | .error e => .error e
    | .ok logical_out =>
      match steaneLoop rest expected with
      | .error e => .error e
      | .ok acc => .ok ((if logical_out ≠ expected then shots else 0) + acc)

/-- `SteaneCode7.logical_error_rate_from_counts`. -/
def steane_logical_error_rate_from_counts
    (counts : List (Bitstring × Nat)) (logical_state : String) : Except QErr ℚ :=
  if ¬(logical_state = "0" ∨ logical_state = "1") then .error .invalidLogicalState
  else
    match steaneLoop counts (expected_logical logical_state) with
    | .error e => .error e
    | .ok logical_errors =>
      if totalShots counts = 0 then .ok 0
      else .ok ((logical_errors : ℚ) / (totalShots counts : ℚ))

/-- The keys of `_NOISE_BUILDERS` in `src/experiments/sweep.py`. Only these
three builders are registered there; `phase_flip_noise_model` exists in
`src/noise/models.py` but is not entered into the table. -/
def NOISE_BUILDER_KEYS : List String :=
  ["bit_flip", "depolarizing", "amplitude_damping"]

/-- Python dictionary assignment `results[p] = v` on an insertion-ordered
association list: an existing key keeps its position and gets the new value,
a fresh key is appended at the end. -/
def dictInsert (results : List (ℚ × ℚ)) (p v : ℚ) : List (ℚ × ℚ) :=
  if results.any (fun e => e.1 = p) then
    results.map (fun e => if e.1 = p then (e.1, v) else e)
  else results ++ [(p, v)]

/-- The `for p in ps` loop of `run_code_on_noise_grid`. Per iteration, in
source order: `noise_builder(p)` validates `0 <= p <= 1` (every registered
builder in `src/noise/models.py` starts with this check), then
`code.build_circuit(logical_state=...)` validates the logical state (every
code variant raises unless the state is `"0"` or `"1"`), then the simulator
runs and the distribution is decoded. The simulator invocation together
with transpilation and decoding is abstracted as the external oracle
`sim : ℚ → ℚ` returning the decoded logical error rate for a strength;
`calls` records the strengths for which the simulator was invoked, in
order of invocation. -/
def gridLoop (sim : ℚ → ℚ) (logical_state : String) (ps : List ℚ)
    (calls : List ℚ) (results : List (ℚ × ℚ)) :
    List ℚ × Except QErr (List (ℚ × ℚ)) :=
  match ps with
  | [] => (calls, .ok results)
  | p :: rest =>
    if ¬(0 ≤ p ∧ p ≤ 1) then (calls, .error .invalidProbability)
    else if ¬(logical_state = "0" ∨ logical_state = "1") then
      (calls, .error .invalidLogicalState)
    else gridLoop sim logical_state rest (calls ++ [p]) (dictInsert results p (sim p))

/-- `run_code_on_noise_grid`, instrumented with the list of strengths for
which the external simulator was actually invoked (first component).
The unknown-noise-type check runs before the sweep loop. -/
def run_code_on_noise_grid_traced (sim : ℚ → ℚ) (noise_type : String)
    (ps : List ℚ) (logical_state : String) :
    List ℚ × Except QErr (List (ℚ × ℚ)) :=
  if ¬(noise_type ∈ NOISE_BUILDER_KEYS) then
    ([], .error (.unknownNoiseType noise_type))
  else gridLoop sim logical_state ps [] []

/-- `run_code_on_noise_grid`: the returned mapping (insertion-ordered
association list, as a Python dict) or the raised error. -/
def run_code_on_noise_grid (sim : ℚ → ℚ) (noise_type : String)
    (ps : List ℚ) (logical_state : String) : Except QErr (List (ℚ × ℚ)) :=
  (run_code_on_noise_grid_traced sim noise_type ps logical_state).2

/-- Hamming distance between two bitstrings as a plain function (the count
of differing character positions over `zip`); `hamming_distance` returns
exactly this value when the lengths agree. -/
def hammingN (a b : Bitstring) : Nat :=
  (a.zip b).countP (fun p => p.1 ≠ p.2)

/-- Minimum Hamming distance from a received word to a set of codewords,
starting the running minimum at `n_physical + 1 = 8` exactly as the
decoder initialises `best_dist`; for 7-character words and codewords all
distances are at most 7, so this is the true minimum. -/
def minDistTo (w : Bitstring) (cws : List Bitstring) : Nat :=
  (cws.map (hammingN w)).foldl min 8

/-- Spec-side description of one pooled vote of the row/column decoder:
the 2-of-3 majority over the characters at positions `i`, `j`, `k` of the
first 9 characters of the reversed key (claim C5 wording). -/
def specVote (d : Bitstring) (i j k : Nat) : Nat :=
  if 2 ≤ countOnes [d.getD i '0', d.getD j '0', d.getD k '0'] then 1 else 0

/-- Spec-side count of pooled votes equal to 1: the three row majorities
over positions (0,1,2), (3,4,5), (6,7,8) and the three column majorities
over positions (k, k+3, k+6), per claim C5. -/
def specVoteCount (d : Bitstring) : Nat :=
  ([specVote d 0 1 2, specVote d 3 4 5, specVote d 6 7 8,
    specVote d 0 3 6, specVote d 1 4 7, specVote d 2 5 8]).countP (fun v => v = 1)

end QECLab

deriving instance DecidableEq for Except

namespace QECLab

lemma hamming_distance_eq {a b : Bitstring} (h : a.length = b.length) :
    hamming_distance a b = .ok (hammingN a b) := by
  simp [hamming_distance, hammingN, h]

lemma foldl_min_le_init (l : List Nat) (i : Nat) : l.foldl min i ≤ i := by
  induction l generalizing i with
  | nil => exact Nat.le_refl i
  | cons a t ih =>
    exact Nat.le_trans (ih (min i a)) (Nat.min_le_left i a)

lemma foldl_min_le (l : List Nat) (i x : Nat) (hx : x ∈ l) : l.foldl min i ≤ x := by
  induction l generalizing i with
  | nil => cases hx
  | cons a t ih =>
    rcases List.mem_cons.mp hx with rfl | hx
    · exact Nat.le_trans (foldl_min_le_init t (min i x)) (Nat.min_le_right i x)
    · exact ih (min i a) hx

lemma scanCodewords_eq (data : Bitstring) (label : Nat) (cws : List Bitstring)
    (best : Nat × Nat) (h : ∀ cw ∈ cws, cw.length = data.length) :
    scanCodewords data label cws best =
      .ok ((cws.map (hammingN data)).foldl min best.1,
           if cws.any (fun cw => decide (hammingN data cw < best.1))
           then label else best.2) := by
  induction cws generalizing best with
  | nil => simp [scanCodewords]
  | cons cw rest ih =>
    have hcw : data.length = cw.length := (h cw (List.mem_cons_self cw rest)).symm
    have hrest : ∀ c ∈ rest, c.length = data.length :=
      fun c hc => h c (List.mem_cons_of_mem cw hc)
    simp only [scanCodewords, hamming_distance_eq hcw]
    rw [ih _ hrest]
    by_cases hd : hammingN data cw < best.1
    · simp only [if_pos hd, List.map_cons, List.foldl_cons, List.any_cons,
        Nat.min_eq_right (Nat.le_of_lt hd), ite_self, decide_eq_true hd,
        Bool.true_or, if_pos]
    · simp only [if_neg hd, List.map_cons, List.foldl_cons, List.any_cons,
        Nat.min_eq_left (Nat.le_of_not_lt hd), decide_eq_false hd, Bool.false_or]

set_option maxHeartbeats 1600000 in
lemma steane_decode_eq (key : Bitstring) (h : 7 ≤ key.length) :
    steane_decode_logical_bit key =
      .ok (if ODD_CODEWORDS.any (fun cw =>
              decide (hammingN (key.reverse.take 7) cw
                < minDistTo (key.reverse.take 7) EVEN_CODEWORDS))
           then 1 else 0) := by
  have hrev : ¬ key.reverse.length < 7 := by
    simp only [List.length_reverse]; omega
  have hw : (key.reverse.take 7).length = 7 := by
    simp only [List.length_take, List.length_reverse]; omega
  have hE7 : ∀ cw ∈ EVEN_CODEWORDS, cw.length = 7 := by decide
  have hO7 : ∀ cw ∈ ODD_CODEWORDS, cw.length = 7 := by decide
  have hE : ∀ cw ∈ EVEN_CODEWORDS, cw.length = (key.reverse.take 7).length :=
    fun cw hc => (hE7 cw hc).trans hw.symm
  have hO : ∀ cw ∈ ODD_CODEWORDS, cw.length = (key.reverse.take 7).length :=
    fun cw hc => (hO7 cw hc).trans hw.symm
  have h1 : scanCodewords (key.reverse.take 7) 0 EVEN_CODEWORDS (8, 0) =
      .ok (minDistTo (key.reverse.take 7) EVEN_CODEWORDS, 0) := by
    rw [scanCodewords_eq _ _ _ _ hE]
    simp only [ite_self]
    rfl
  have h2 : scanCodewords (key.reverse.take 7) 1 ODD_CODEWORDS
        (minDistTo (key.reverse.take 7) EVEN_CODEWORDS, 0) =
      .ok ((ODD_CODEWORDS.map (hammingN (key.reverse.take 7))).foldl min
             (minDistTo (key.reverse.take 7) EVEN_CODEWORDS),
           if ODD_CODEWORDS.any (fun cw =>
               decide (hammingN (key.reverse.take 7) cw
                 < minDistTo (key.reverse.take 7) EVEN_CODEWORDS))
           then 1 else 0) :=
    scanCodewords_eq _ _ _ _ hO
  unfold steane_decode_logical_bit
  rw [if_neg hrev, h1]
  simp only [h2]

/-- Claim C2: for every outcome key of sufficient length whose received word
(the first 7 characters of the reversed key) has equal minimum Hamming
distance to the ONE-codeword set and to the ZERO-codeword set, the
nearest-codeword decoder of `SteaneCode7` returns logical 0: the label is
updated only on strict improvement of the minimum distance, and the
ZERO-set codewords are evaluated first. -/
theorem steane_tie_resolves_to_zero (key : Bitstring) (h7 : 7 ≤ key.length)
    (htie : minDistTo (key.reverse.take 7) ODD_CODEWORDS
          = minDistTo (key.reverse.take 7) EVEN_CODEWORDS) :
    steane_decode_logical_bit key = .ok 0 := by
  rw [steane_decode_eq key h7]
  have hnone : ODD_CODEWORDS.any (fun cw =>
      decide (hammingN (key.reverse.take 7) cw
        < minDistTo (key.reverse.take 7) EVEN_CODEWORDS)) = false := by
    rw [List.any_eq_false]
    intro cw hcw
    simp only [decide_eq_true_eq]
    have hge : minDistTo (key.reverse.take 7) ODD_CODEWORDS
        ≤ hammingN (key.reverse.take 7) cw :=
      foldl_min_le _ 8 _ (List.mem_map_of_mem _ hcw)
    omega
  rw [hnone]
  rfl

/-- Witness for C2: the key `1000002` (whose reversed received word is
`2000001`) is at minimum distance 2 from both codeword sets, and the
decoder resolves the tie to logical 0. -/
theorem steane_tie_resolves_to_zero_witness :
    7 ≤ (['1','0','0','0','0','0','2'] : Bitstring).length
    ∧ minDistTo ((['1','0','0','0','0','0','2'] : Bitstring).reverse.take 7) ODD_CODEWORDS
      = minDistTo ((['1','0','0','0','0','0','2'] : Bitstring).reverse.take 7) EVEN_CODEWORDS
    ∧ steane_decode_logical_bit ['1','0','0','0','0','0','2'] = .ok 0 :=
  ⟨by decide, by decide, steane_tie_resolves_to_zero _ (by decide) (by decide)⟩

/-- Claim C10: along the decoding path of `SteaneCode7`, the
length-mismatch branch of `_hamming_distance` is unreachable: every
codeword of both fixed tables has exactly 7 characters, and for every
outcome key passing the length precondition the received word has exactly
7 characters and `_decode_logical_bit` returns normally. -/
theorem steane_hamming_mismatch_unreachable :
    (∀ cw ∈ EVEN_CODEWORDS ++ ODD_CODEWORDS, cw.length = 7)
    ∧ ∀ key : Bitstring, 7 ≤ key.length →
        (key.reverse.take 7).length = 7
        ∧ exceptIsOk (steane_decode_logical_bit key) = true := by
  refine ⟨by decide, fun key h => ⟨?_, ?_⟩⟩
  · simp only [List.length_take, List.length_reverse]; omega
  · rw [steane_decode_eq key h]; rfl

/-- Witness for C10 at the all-zero 7-character key. -/
theorem steane_hamming_mismatch_unreachable_witness :
    exceptIsOk (steane_decode_logical_bit (List.replicate 7 '0')) = true :=
  ((steane_hamming_mismatch_unreachable.2 (List.replicate 7 '0')) (by decide)).2

/-- Claim C3: every single-bit flip of the all-zero 9-bit outcome decodes,
under the hierarchical block-of-blocks majority of `ShorCode9`, to the same
logical bit as the all-zero outcome, namely logical 0. -/
theorem shor9_single_flip_corrected :
    ∀ i : Fin 9,
      shor9_decode ((List.replicate 9 '0').set i '1') = shor9_decode (List.replicate 9 '0')
      ∧ shor9_decode (List.replicate 9 '0') = 0 := by decide

/-- Witness for C3 at the concrete flip position 4. -/
theorem shor9_single_flip_corrected_witness :
    shor9_decode ((List.replicate 9 '0').set 4 '1') = shor9_decode (List.replicate 9 '0') :=
  (shor9_single_flip_corrected 4).1

/-- Claim C4: the majority-vote decoder of `RepetitionCode3` outputs logical
one on a 3-character outcome key iff at least two of its characters are `1`,
and on the distribution with 900 shots of `000` and 100 shots of `111` the
logical error rate is exactly 1/10 for expected state `0` and exactly 9/10
for expected state `1`. -/
theorem rep3_majority_and_rates :
    (∀ key : Bitstring, key.length = 3 → (rep3_decode key = 1 ↔ 2 ≤ countOnes key))
    ∧ rep3_logical_error_rate_from_counts
        [(['0','0','0'], 900), (['1','1','1'], 100)] "0" = .ok (1/10)
    ∧ rep3_logical_error_rate_from_counts
        [(['0','0','0'], 900), (['1','1','1'], 100)] "1" = .ok (9/10) := by
  refine ⟨?_, ?_, ?_⟩
  · intro key _
    unfold rep3_decode
    split
    · simp_all
    · simp_all
  · norm_num [rep3_logical_error_rate_from_counts, totalShots, rep3_decode, countOnes,
      expected_logical, List.countP_cons, List.countP_nil,
      show ('0' : Char) ≠ '1' by decide, show ("0" : String) ≠ "1" by decide]
  · norm_num [rep3_logical_error_rate_from_counts, totalShots, rep3_decode, countOnes,
      expected_logical, List.countP_cons, List.countP_nil,
      show ('0' : Char) ≠ '1' by decide, show ("0" : String) ≠ "1" by decide]

/-- Witness for C4 at the concrete outcome key `011`. -/
theorem rep3_majority_and_rates_witness :
    rep3_decode ['0', '1', '1'] = 1 ↔ 2 ≤ countOnes ['0', '1', '1'] :=
  rep3_majority_and_rates.1 ['0', '1', '1'] rfl

lemma exists_nine_of_length (l : Bitstring) (h : l.length = 9) :
    ∃ a1 a2 a3 a4 a5 a6 a7 a8 a9, l = [a1, a2, a3, a4, a5, a6, a7, a8, a9] := by
  obtain ⟨a1, l1, rfl⟩ := List.exists_of_length_succ l h
  have h1 : l1.length = 8 := by simpa using h
  obtain ⟨a2, l2, rfl⟩ := List.exists_of_length_succ l1 h1
  have h2 : l2.length = 7 := by simpa using h1
  obtain ⟨a3, l3, rfl⟩ := List.exists_of_length_succ l2 h2
  have h3 : l3.length = 6 := by simpa using h2
  obtain ⟨a4, l4, rfl⟩ := List.exists_of_length_succ l3 h3
  have h4 : l4.length = 5 := by simpa using h3
  obtain ⟨a5, l5, rfl⟩ := List.exists_of_length_succ l4 h4
  have h5 : l5.length = 4 := by simpa using h4
  obtain ⟨a6, l6, rfl⟩ := List.exists_of_length_succ l5 h5
  have h6 : l6.length = 3 := by simpa using h5
  obtain ⟨a7, l7, rfl⟩ := List.exists_of_length_succ l6 h6
  have h7 : l7.length = 2 := by simpa using h6
  obtain ⟨a8, l8, rfl⟩ := List.exists_of_length_succ l7 h7
  have h8 : l8.length = 1 := by simpa using h7
  obtain ⟨a9, l9, rfl⟩ := List.exists_of_length_succ l8 h8
  have h9 : l9.length = 0 := by simpa using h8
  rw [List.length_eq_zero.mp h9]
  exact ⟨a1, a2, a3, a4, a5, a6, a7, a8, a9, rfl⟩

/-- Claim C5: for every outcome key of length at least 9, the row/column
decoder of `RotatedSurfaceCodeD3` outputs logical one iff at least 3 of the
6 pooled votes equal 1 (three row majorities over positions (0,1,2),
(3,4,5), (6,7,8) and three column majorities over positions (k, k+3, k+6)
of the first 9 characters of the reversed key); the result depends only on
those 9 characters, and the all-zero data block decodes to logical 0. -/
theorem surface_rowcol_votes (key : Bitstring) (h9 : 9 ≤ key.length) :
    (surface_decode key = 1 ↔ 3 ≤ specVoteCount (key.reverse.take 9))
    ∧ (∀ key2 : Bitstring, key.reverse.take 9 = key2.reverse.take 9 →
        surface_decode key = surface_decode key2)
    ∧ (key.reverse.take 9 = List.replicate 9 '0' → surface_decode key = 0) := by
  refine ⟨?_, ?_, ?_⟩
  · have hl : (key.reverse.take 9).length = 9 := by
      simp only [List.length_take, List.length_reverse]; omega
    obtain ⟨a1, a2, a3, a4, a5, a6, a7, a8, a9, hd⟩ := exists_nine_of_length _ hl
    unfold surface_decode
    rw [hd]
    have hsame : surface_decode_data [a1, a2, a3, a4, a5, a6, a7, a8, a9] =
        if 3 ≤ specVoteCount [a1, a2, a3, a4, a5, a6, a7, a8, a9] then 1 else 0 := rfl
    rw [hsame]
    split
    · next hcond => simp [hcond]
    · next hcond => simp [hcond]
  · intro key2 heq
    unfold surface_decode
    rw [heq]
  · intro h0
    unfold surface_decode
    rw [h0]
    rfl

/-- Witness for C5: the all-zero 17-character outcome (9 data characters
plus 8 ancilla characters, all zero) decodes to logical 0. -/
theorem surface_rowcol_votes_witness :
    surface_decode (List.replicate 17 '0') = 0 :=
  (surface_rowcol_votes (List.replicate 17 '0') (by decide)).2.2 (by decide)

lemma steane_decode_short (key : Bitstring) (h : key.length < 7) :
    steane_decode_logical_bit key = .error (.bitstringTooShort key) := by
  have hr : key.reverse.length < 7 := by simpa using h
  unfold steane_decode_logical_bit
  rw [if_pos hr]

lemma steane_decode_ok (key : Bitstring) (h : 7 ≤ key.length) :
    ∃ b, steane_decode_logical_bit key = .ok b :=
  ⟨_, steane_decode_eq key h⟩

lemma steaneLoop_ok (counts : List (Bitstring × Nat)) (expected : Nat)
    (h : ∀ e ∈ counts, 7 ≤ e.1.length) :
    ∃ n, steaneLoop counts expected = .ok n := by
  induction counts with
  | nil => exact ⟨0, rfl⟩
  | cons e rest ih =>
    obtain ⟨k, s⟩ := e
    obtain ⟨b, hb⟩ := steane_decode_ok k (h (k, s) (List.mem_cons_self _ _))
    obtain ⟨n, hn⟩ := ih (fun x hx => h x (List.mem_cons_of_mem _ hx))
    exact ⟨(if b ≠ expected then s else 0) + n, by simp only [steaneLoop, hb, hn]⟩

lemma steaneLoop_error (counts : List (Bitstring × Nat)) (expected : Nat)
    (h : ∃ e ∈ counts, e.1.length < 7) :
    ∃ er, steaneLoop counts expected = .error er := by
  induction counts with
  | nil =>
    rcases h with ⟨e, he, _⟩
    cases he
  | cons p rest ih =>
    obtain ⟨k, s⟩ := p
    by_cases hk : k.length < 7
    · exact ⟨QErr.bitstringTooShort k,
        by simp only [steaneLoop, steane_decode_short k hk]⟩
    · obtain ⟨b, hb⟩ := steane_decode_ok k (Nat.le_of_not_lt hk)
      have hrest : ∃ e ∈ rest, e.1.length < 7 := by
        rcases h with ⟨e, he, hl⟩
        rcases List.mem_cons.mp he with rfl | he2
        · exact absurd hl hk
        · exact ⟨e, he2, hl⟩
      obtain ⟨er, her⟩ := ih hrest
      exact ⟨er, by simp only [steaneLoop, hb, her]⟩

lemma rep3_rate_ok (counts : List (Bitstring × Nat)) (ls : String)
    (h : ls = "0" ∨ ls = "1") :
    ∃ q, rep3_logical_error_rate_from_counts counts ls = .ok q := by
  unfold rep3_logical_error_rate_from_counts
  rw [if_neg (not_not_intro h)]
  dsimp only
  split
  · exact ⟨0, rfl⟩
  · exact ⟨_, rfl⟩

lemma shor9_rate_ok (counts : List (Bitstring × Nat)) (ls : String)
    (h : ls = "0" ∨ ls = "1") :
    ∃ q, shor9_logical_error_rate_from_counts counts ls = .ok q := by
  unfold shor9_logical_error_rate_from_counts
  rw [if_neg (not_not_intro h)]
  dsimp only
  split
  · exact ⟨0, rfl⟩
  · exact ⟨_, rfl⟩

lemma surface_rate_ok (counts : List (Bitstring × Nat)) (ls : String)
    (h : ls = "0" ∨ ls = "1") :
    ∃ q, surface_logical_error_rate_from_counts counts ls = .ok q := by
  unfold surface_logical_error_rate_from_counts
  rw [if_neg (not_not_intro h)]
  dsimp only
  split
  · exact ⟨0, rfl⟩
  · exact ⟨_, rfl⟩

/-- Claim C1 (amended): among the four code variants only `SteaneCode7`
validates outcome-key length. For every valid expected state,
`SteaneCode7.logical_error_rate_from_counts` raises whenever some outcome
key is shorter than its 7 physical qubits, while `RepetitionCode3`,
`ShorCode9` and `RotatedSurfaceCodeD3` return a rate for every counts
mapping, short keys included, without raising. -/
theorem short_key_validation :
    (∀ (counts : List (Bitstring × Nat)) (ls : String), (ls = "0" ∨ ls = "1") →
       (∃ e ∈ counts, e.1.length < 7) →
       ∃ er, steane_logical_error_rate_from_counts counts ls = .error er)
    ∧ (∀ (counts : List (Bitstring × Nat)) (ls : String), (ls = "0" ∨ ls = "1") →
       (∃ q, rep3_logical_error_rate_from_counts counts ls = .ok q)
       ∧ (∃ q, shor9_logical_error_rate_from_counts counts ls = .ok q)
       ∧ (∃ q, surface_logical_error_rate_from_counts counts ls = .ok q)) := by
  constructor
  · intro counts ls hls hshort
    obtain ⟨er, her⟩ := steaneLoop_error counts (expected_logical ls) hshort
    refine ⟨er, ?_⟩
    unfold steane_logical_error_rate_from_counts
    rw [if_neg (not_not_intro hls)]
    simp only [her]
  · intro counts ls hls
    exact ⟨rep3_rate_ok counts ls hls, shor9_rate_ok counts ls hls,
      surface_rate_ok counts ls hls⟩

/-- Counterexample for C1 as frozen: `RepetitionCode3` accepts the
one-character outcome key `0` (shorter than its 3 physical qubits) and
returns rate 0 instead of raising. -/
theorem short_key_validation_counterexample :
    rep3_logical_error_rate_from_counts [([ '0' ], 1)] "0" = .ok 0 := by
  norm_num [rep3_logical_error_rate_from_counts, totalShots, rep3_decode, countOnes,
    expected_logical, List.countP_cons, List.countP_nil,
    show ('0' : Char) ≠ '1' by decide, show ("0" : String) ≠ "1" by decide]

/-- Witness for C1 (amended) at a concrete short-keyed counts mapping. -/
theorem short_key_validation_witness :
    ∃ er, steane_logical_error_rate_from_counts [([ '0' ], 1)] "0" = .error er :=
  short_key_validation.1 [([ '0' ], 1)] "0" (Or.inl rfl)
    ⟨([ '0' ], 1), List.mem_cons_self _ _, by decide⟩

/-- Claim C6 (amended): with a zero total shot count every decoder that
reaches its aggregation returns exactly 0: `RepetitionCode3`, `ShorCode9`
and `RotatedSurfaceCodeD3` do so for every counts mapping with zero total
(the empty mapping included), and `SteaneCode7` does so provided every
outcome key has at least 7 characters (its per-key length check runs even
for zero-shot entries). -/
theorem zero_total_shots_rate :
    (∀ (counts : List (Bitstring × Nat)) (ls : String), (ls = "0" ∨ ls = "1") →
       totalShots counts = 0 →
       rep3_logical_error_rate_from_counts counts ls = .ok 0)
    ∧ (∀ (counts : List (Bitstring × Nat)) (ls : String), (ls = "0" ∨ ls = "1") →
       totalShots counts = 0 →
       shor9_logical_error_rate_from_counts counts ls = .ok 0)
    ∧ (∀ (counts : List (Bitstring × Nat)) (ls : String), (ls = "0" ∨ ls = "1") →
       totalShots counts = 0 →
       surface_logical_error_rate_from_counts counts ls = .ok 0)
    ∧ (∀ (counts : List (Bitstring × Nat)) (ls : String), (ls = "0" ∨ ls = "1") →
       totalShots counts = 0 → (∀ e ∈ counts, 7 ≤ e.1.length) →
       steane_logical_error_rate_from_counts counts ls = .ok 0) := by
  refine ⟨?_, ?_, ?_, ?_⟩
  · intro counts ls hls ht
    unfold rep3_logical_error_rate_from_counts
    rw [if_neg (not_not_intro hls)]
    dsimp only
    rw [if_pos ht]
  · intro counts ls hls ht
    unfold shor9_logical_error_rate_from_counts
    rw [if_neg (not_not_intro hls)]
    dsimp only
    rw [if_pos ht]
  · intro counts ls hls ht
    unfold surface_logical_error_rate_from_counts
    rw [if_neg (not_not_intro hls)]
    dsimp only
    rw [if_pos ht]
  · intro counts ls hls ht hlen
    obtain ⟨n, hn⟩ := steaneLoop_ok counts (expected_logical ls) hlen
    unfold steane_logical_error_rate_from_counts
    rw [if_neg (not_not_intro hls)]
    simp only [hn]
    rw [if_pos ht]

/-- Counterexample for C6 as frozen: a counts mapping of total 0 whose only
key is the empty string makes `SteaneCode7` raise instead of returning 0. -/
theorem zero_total_shots_rate_counterexample :
    totalShots [(([] : Bitstring), 0)] = 0
    ∧ steane_logical_error_rate_from_counts [(([] : Bitstring), 0)] "0"
        = .error (.bitstringTooShort []) :=
  ⟨rfl, by rfl⟩

/-- Witness for C6 (amended) at the empty counts mapping. -/
theorem zero_total_shots_rate_witness :
    rep3_logical_error_rate_from_counts [] "0" = .ok 0 :=
  zero_total_shots_rate.1 [] "0" (Or.inl rfl) rfl

lemma gridLoop_ne_unknown (sim : ℚ → ℚ) (ls : String) (ps : List ℚ)
    (calls : List ℚ) (results : List (ℚ × ℚ)) (nt : String) :
    (gridLoop sim ls ps calls results).2 ≠ .error (.unknownNoiseType nt) := by
  induction ps generalizing calls results with
  | nil => simp [gridLoop]
  | cons p rest ih =>
    simp only [gridLoop]
    split
    · simp
    · split
      · simp
      · exact ih _ _

/-- Claim C7 (amended): `run_code_on_noise_grid` raises the unknown-category
error iff the noise type lies outside the three registered categories
bit_flip, depolarizing and amplitude_damping; in particular phase_flip,
although a builder for it exists in `noise.models`, is rejected because it
is not registered in `_NOISE_BUILDERS`. -/
theorem unknown_noise_type_check (sim : ℚ → ℚ) (noise_type : String)
    (ps : List ℚ) (ls : String) :
    run_code_on_noise_grid sim noise_type ps ls
      = .error (.unknownNoiseType noise_type)
    ↔ noise_type ∉ NOISE_BUILDER_KEYS := by
  unfold run_code_on_noise_grid run_code_on_noise_grid_traced
  by_cases hm : noise_type ∈ NOISE_BUILDER_KEYS
  · rw [if_neg (not_not_intro hm)]
    simp only [hm, not_true_eq_false, iff_false]
    exact gridLoop_ne_unknown sim ls ps [] [] noise_type
  · rw [if_pos hm]
    simp [hm]

/-- Counterexample for C7 as frozen: the category phase_flip, a member of
the four-element set named by the claim, is rejected with the
unknown-category error. -/
theorem unknown_noise_type_check_counterexample :
    run_code_on_noise_grid (fun _ => 0) "phase_flip" [0] "0"
      = .error (.unknownNoiseType "phase_flip") := by rfl

lemma gridLoop_calls_inRange (sim : ℚ → ℚ) (ls : String) (ps : List ℚ)
    (calls : List ℚ) (results : List (ℚ × ℚ))
    (hc : ∀ p ∈ calls, 0 ≤ p ∧ p ≤ 1) :
    ∀ p ∈ (gridLoop sim ls ps calls results).1, 0 ≤ p ∧ p ≤ 1 := by
  induction ps generalizing calls results with
  | nil => simpa [gridLoop] using hc
  | cons p rest ih =>
    simp only [gridLoop]
    split
    · simpa using hc
    · split
      · simpa using hc
      · next hp _ =>
        apply ih
        intro q hq
        rcases List.mem_append.mp hq with h1 | h2
        · exact hc q h1
        · rw [List.mem_singleton.mp h2]
          exact not_not.mp hp

/-- Claim C8 (amended): an unknown noise category or an invalid logical
state is detected before any simulator invocation (the traced simulator
call list is empty), and the simulator is never invoked for an
out-of-range strength; but an out-of-range strength is detected only when
its own sweep point is reached, after simulator calls for earlier in-range
strengths have already happened. -/
theorem validation_before_simulation :
    (∀ (sim : ℚ → ℚ) (nt : String) (ps : List ℚ) (ls : String),
       nt ∉ NOISE_BUILDER_KEYS →
       run_code_on_noise_grid_traced sim nt ps ls
         = ([], .error (.unknownNoiseType nt)))
    ∧ (∀ (sim : ℚ → ℚ) (nt : String) (ps : List ℚ) (ls : String),
       ¬(ls = "0" ∨ ls = "1") →
       (run_code_on_noise_grid_traced sim nt ps ls).1 = [])
    ∧ (∀ (sim : ℚ → ℚ) (nt : String) (ps : List ℚ) (ls : String),
       ∀ p ∈ (run_code_on_noise_grid_traced sim nt ps ls).1, 0 ≤ p ∧ p ≤ 1) := by
  refine ⟨?_, ?_, ?_⟩
  · intro sim nt ps ls hnt
    unfold run_code_on_noise_grid_traced
    rw [if_pos hnt]
  · intro sim nt ps ls hls
    unfold run_code_on_noise_grid_traced
    split
    · rfl
    · cases ps with
      | nil => rfl
      | cons p rest =>
        simp only [gridLoop]
        split
        · rfl
        · simp [hls]
  · intro sim nt ps ls
    unfold run_code_on_noise_grid_traced
    split
    · intro p hp
      cases hp
    · exact gridLoop_calls_inRange sim ls ps [] [] (by intro q hq; cases hq)

/-- Counterexample for C8 as frozen: with strengths [0, 2] the out-of-range
strength 2 is only detected after the simulator has already been invoked
for strength 0. -/
theorem validation_before_simulation_counterexample :
    run_code_on_noise_grid_traced (fun _ => 0) "bit_flip" [0, 2] "0"
      = ([0], .error .invalidProbability) := by rfl

/-- Witness for C8 (amended) at a concrete unknown noise category. -/
theorem validation_before_simulation_witness :
    run_code_on_noise_grid_traced (fun _ => 0) "phase_flip" [0] "1"
      = ([], .error (.unknownNoiseType "phase_flip")) :=
  validation_before_simulation.1 (fun _ => 0) "phase_flip" [0] "1" (by decide)

lemma dictInsert_fresh (m : List (ℚ × ℚ)) (p v : ℚ)
    (h : m.any (fun e => e.1 = p) = false) :
    dictInsert m p v = m ++ [(p, v)] := by
  unfold dictInsert
  rw [if_neg]
  simp [h]

lemma gridLoop_fresh_keys (sim : ℚ → ℚ) (ls : String) (hls : ls = "0" ∨ ls = "1") :
    ∀ (ps : List ℚ) (calls : List ℚ) (m : List (ℚ × ℚ)),
      (∀ p ∈ ps, 0 ≤ p ∧ p ≤ 1) → ps.Nodup →
      (∀ p ∈ ps, m.any (fun e => e.1 = p) = false) →
      gridLoop sim ls ps calls m
        = (calls ++ ps, .ok (m ++ ps.map (fun p => (p, sim p)))) := by
  intro ps
  induction ps with
  | nil =>
    intro calls m _ _ _
    simp [gridLoop]
  | cons p rest ih =>
    intro calls m hrange hnodup hfresh
    have hp := hrange p (List.mem_cons_self _ _)
    simp only [gridLoop]
    rw [if_neg (not_not_intro hp), if_neg (not_not_intro hls)]
    rw [dictInsert_fresh m p _ (hfresh p (List.mem_cons_self _ _))]
    rw [ih (calls ++ [p]) (m ++ [(p, sim p)])
      (fun q hq => hrange q (List.mem_cons_of_mem _ hq))
      hnodup.of_cons ?_]
    · simp [List.append_assoc]
    · intro q hq
      have hpq : p ≠ q := fun hEq => (List.nodup_cons.mp hnodup).1 (hEq ▸ hq)
      rw [List.any_append]
      simp [hfresh q (List.mem_cons_of_mem _ hq), hpq]

/-- Claim C9 (amended): for pairwise-distinct requested strengths, all in
range, with a registered noise category and a valid logical state,
`run_code_on_noise_grid` returns exactly one (strength, rate) pair per
requested strength, in exactly the requested order; a duplicated strength
instead collapses onto the entry created at its first occurrence. -/
theorem sweep_result_order (sim : ℚ → ℚ) (nt : String) (ps : List ℚ) (ls : String)
    (hnt : nt ∈ NOISE_BUILDER_KEYS) (hls : ls = "0" ∨ ls = "1")
    (hrange : ∀ p ∈ ps, 0 ≤ p ∧ p ≤ 1) (hnodup : ps.Nodup) :
    run_code_on_noise_grid sim nt ps ls = .ok (ps.map (fun p => (p, sim p))) := by
  unfold run_code_on_noise_grid run_code_on_noise_grid_traced
  rw [if_neg (not_not_intro hnt)]
  rw [gridLoop_fresh_keys sim ls hls ps [] [] hrange hnodup (fun p _ => rfl)]
  simp

/-- Counterexample for C9 as frozen: requesting the strength 0 twice yields
a single-entry mapping, not one pair per requested strength. -/
theorem sweep_result_order_counterexample :
    run_code_on_noise_grid (fun _ => 0) "bit_flip" [0, 0] "0" = .ok [(0, 0)] := by rfl

/-- Witness for C9 (amended) at the concrete strength list [0, 1]. -/
theorem sweep_result_order_witness :
    run_code_on_noise_grid (fun _ => 0) "bit_flip" [0, 1] "0"
      = .ok [(0, 0), (1, 0)] :=
  sweep_result_order (fun _ => 0) "bit_flip" [0, 1] "0" (by decide) (Or.inl rfl)
    (by decide) (by decide)

end QECLab
